import Mathlib

/-!
Verification of the `alpaca` brokerage-client repository.

Shallow embedding of the repository's pure logic:
* the OSI symbol codec (used through `finance.variables.OSI`),
* the order payload builder / acknowledgement parser (`src/orders.py`),
* the portfolio symbol parsers (`src/portfolio.py`),
* trade/quote reconciliation and contract pagination/sorting (`src/market.py`).

Tokens and wire strings are modelled as `List Char`; money amounts on the
order path as integer cents; market prices as rationals; strikes in
milli-dollar units (price × 1000, the OSI scaling).
-/

namespace Alpaca

/-! ### Characters and decimal digit strings -/

/-- ASCII decimal digit, `'0'..'9'`. -/
def isDigitC (c : Char) : Bool := 48 ≤ c.toNat && c.toNat ≤ 57

/-- ASCII letter, `'A'..'Z'` or `'a'..'z'`. -/
def isAlphaC (c : Char) : Bool := (65 ≤ c.toNat && c.toNat ≤ 90) || (97 ≤ c.toNat && c.toNat ≤ 122)

/-- ASCII uppercase letter, `'A'..'Z'`. -/
def isUpperC (c : Char) : Bool := 65 ≤ c.toNat && c.toNat ≤ 90

/-- Model of `str.upper` on one character. -/
def upperC (c : Char) : Char :=
  if 97 ≤ c.toNat && c.toNat ≤ 122 then Char.ofNat (c.toNat - 32) else c

/-- The character of a single decimal digit. -/
def digitChar (d : Nat) : Char := Char.ofNat (48 + d)

/-- Zero-padded fixed-width decimal rendering, most significant digit first. -/
def padNum : Nat → Nat → List Char
  | 0, _ => []
  | w + 1, n => digitChar (n / 10 ^ w) :: padNum w (n % 10 ^ w)

/-- Decimal digits, fuel-bounded so that evaluation is structural. -/
def natDigitsAux : Nat → Nat → List Char
  | 0, _ => []
  | fuel + 1, n =>
      if n < 10 then [digitChar n]
      else natDigitsAux fuel (n / 10) ++ [digitChar (n % 10)]

/-- Decimal digits of `n`, no leading zeros (`"0"` for zero). -/
def natDigits (n : Nat) : List Char := natDigitsAux (n + 1) n

/-- Value of a digit string read left to right. -/
def readNum (cs : List Char) : Nat := cs.foldl (fun a c => a * 10 + (c.toNat - 48)) 0

/-- Consume exactly `w` digit characters, returning the value and the rest. -/
def readFixedAux : Nat → Nat → List Char → Option (Nat × List Char)
  | 0, acc, cs => some (acc, cs)
  | _ + 1, _, [] => none
  | w + 1, acc, c :: cs =>
      if isDigitC c then readFixedAux w (acc * 10 + (c.toNat - 48)) cs else none

def readFixed (w : Nat) (cs : List Char) : Option (Nat × List Char) := readFixedAux w 0 cs

theorem digitChar_toNat : ∀ d, d < 10 → (digitChar d).toNat = 48 + d := by decide

theorem isDigitC_digitChar : ∀ d, d < 10 → isDigitC (digitChar d) = true := by decide

theorem isAlphaC_digitChar : ∀ d, d < 10 → isAlphaC (digitChar d) = false := by decide

theorem not_isAlphaC_of_isDigitC {c : Char} (h : isDigitC c = true) : isAlphaC c = false := by
  simp only [isDigitC, Bool.and_eq_true, decide_eq_true_eq] at h
  rw [Bool.eq_false_iff]
  intro hA
  simp only [isAlphaC, Bool.or_eq_true, Bool.and_eq_true, decide_eq_true_eq] at hA
  omega

theorem padNum_length : ∀ w n, (padNum w n).length = w := by
  intro w
  induction w with
  | zero => intro n; rfl
  | succ w ih => intro n; simp [padNum, ih]

theorem readFixedAux_padNum :
    ∀ w n acc rest, n < 10 ^ w →
      readFixedAux w acc (padNum w n ++ rest) = some (acc * 10 ^ w + n, rest) := by
  intro w
  induction w with
  | zero =>
      intro n acc rest hn
      simp only [Nat.pow_zero] at hn
      interval_cases n
      simp [padNum, readFixedAux]
  | succ w ih =>
      intro n acc rest hn
      have hd : n / 10 ^ w < 10 := by
        apply Nat.div_lt_of_lt_mul
        rw [Nat.pow_succ] at hn; omega
      have hm : n % 10 ^ w < 10 ^ w := Nat.mod_lt _ (by positivity)
      have h48 : 48 + n / 10 ^ w - 48 = n / 10 ^ w := Nat.add_sub_cancel_left 48 _
      simp only [padNum, List.cons_append, readFixedAux, isDigitC_digitChar _ hd,
        if_pos, digitChar_toNat _ hd, h48, List.append_eq]
      rw [ih _ _ _ hm]
      have key : ∀ a d m : ℕ, (a * 10 + d) * 10 ^ w + m = a * 10 ^ (w + 1) + (10 ^ w * d + m) := by
        intro a d m; rw [Nat.pow_succ]; ring
      rw [key acc (n / 10 ^ w) (n % 10 ^ w), Nat.div_add_mod]

theorem readFixed_padNum (w n : Nat) (rest : List Char) (hn : n < 10 ^ w) :
    readFixed w (padNum w n ++ rest) = some (n, rest) := by
  unfold readFixed
  rw [readFixedAux_padNum w n 0 rest hn]
  simp

/-! ### takeWhile / dropWhile across an all-satisfying prefix -/

theorem takeWhile_append_all {p : Char → Bool} :
    ∀ (xs ys : List Char), (∀ x ∈ xs, p x = true) →
      (xs ++ ys).takeWhile p = xs ++ ys.takeWhile p := by
  intro xs
  induction xs with
  | nil => intro ys _; simp
  | cons x xs ih =>
      intro ys h
      have hx : p x = true := h x (by simp)
      simp only [List.cons_append, List.takeWhile_cons, hx, if_true]
      rw [ih ys (fun a ha => h a (by simp [ha]))]

theorem dropWhile_append_all {p : Char → Bool} :
    ∀ (xs ys : List Char), (∀ x ∈ xs, p x = true) →
      (xs ++ ys).dropWhile p = ys.dropWhile p := by
  intro xs
  induction xs with
  | nil => intro ys _; simp
  | cons x xs ih =>
      intro ys h
      have hx : p x = true := h x (by simp)
      simp only [List.cons_append, List.dropWhile_cons, hx, if_true]
      exact ih ys (fun a ha => h a (by simp [ha]))

theorem takeWhile_cons_neg {p : Char → Bool} {y : Char} (ys : List Char) (h : p y = false) :
    (y :: ys).takeWhile p = [] := by
  simp [List.takeWhile_cons, h]

theorem dropWhile_cons_neg {p : Char → Bool} {y : Char} (ys : List Char) (h : p y = false) :
    (y :: ys).dropWhile p = y :: ys := by
  simp [List.dropWhile_cons, h]

theorem isAlphaC_of_isUpperC {c : Char} (h : isUpperC c = true) : isAlphaC c = true := by
  simp only [isUpperC, Bool.and_eq_true, decide_eq_true_eq] at h
  simp only [isAlphaC, Bool.or_eq_true, Bool.and_eq_true, decide_eq_true_eq]
  omega

/-! ### Enumerations of `finance.variables` used by the repository -/

inductive OptType | CALL | PUT | EMPTY
deriving DecidableEq, Repr

inductive Instrument | STOCK | OPTION
deriving DecidableEq, Repr

inductive Position | LONG | SHORT
deriving DecidableEq, Repr

inductive Term | MARKET | LIMIT | STOP | STOPLIMIT
deriving DecidableEq, Repr

inductive Tenure | DAY | FILLKILL
deriving DecidableEq, Repr

/-- Expiration date as carried by the OSI token: two-digit year, month, day. -/
structure OSIDate where
  yy : Nat
  mm : Nat
  dd : Nat
deriving DecidableEq, Repr

/-- A contract identity as recovered from / rendered into an OSI token.
`option = EMPTY`, `expire = none`, `strikeMilli = none` denote a stock.
Strikes are in milli-dollar units (price × 1000). -/
structure OSIIdent where
  ticker : List Char
  expire : Option OSIDate
  option : OptType
  strikeMilli : Option Nat
deriving DecidableEq, Repr

def optChar : OptType → Char
  | OptType.CALL => 'C'
  | OptType.PUT => 'P'
  | OptType.EMPTY => 'X'

/-- Modelled from the spec: the OSI `encode` of `finance.variables.OSI`
(the class is imported by `src/orders.py` and `src/portfolio.py` but its code
is not under `src/`).  Per §4.1 it produces `TICKER + YYMMDD + C|P` plus the
8-digit zero-padded strike (price × 1000) for options, and the bare ticker
for stocks; it fails for an empty ticker, and a strike that does not fit the
8-digit field cannot be zero-padded and also fails. -/
def osiEncode (x : OSIIdent) : Option (List Char) :=
  match x.option with
  | OptType.EMPTY => if x.ticker = [] then none else some x.ticker
  | o =>
      match x.expire, x.strikeMilli with
      | some d, some sm =>
          if x.ticker = [] ∨ 10 ^ 8 ≤ sm then none
          else some (x.ticker ++ (padNum 2 d.yy ++ (padNum 2 d.mm ++ (padNum 2 d.dd ++
            (optChar o :: padNum 8 sm)))))
      | _, _ => none

/-- Modelled from the spec: the OSI `decode` of `finance.variables.OSI`
(not under `src/`).  A token is an option if it contains a digit after
stripping the leading alphabetic ticker run; decoding reverses the strike
scaling and the `YYMMDD` expiration; malformed tokens fail. -/
def parseOptChar : List Char → Option (OptType × List Char)
  | [] => none
  | c :: t =>
      if c = 'C' then some (OptType.CALL, t)
      else if c = 'P' then some (OptType.PUT, t)
      else none

def decodeOSI (tok : List Char) : Option OSIIdent :=
  let tkr := tok.takeWhile isAlphaC
  let rest := tok.dropWhile isAlphaC
  if rest.any isDigitC then do
    let (yy, r1) ← readFixed 2 rest
    let (mm, r2) ← readFixed 2 r1
    let (dd, r3) ← readFixed 2 r2
    let (opt, r4) ← parseOptChar r3
    let (sm, r5) ← readFixed 8 r4
    if r5 = [] then some ⟨tkr, some ⟨yy, mm, dd⟩, opt, some sm⟩ else none
  else some ⟨tok, none, OptType.EMPTY, none⟩

/-- Validity of an expiration date for the fixed-width `YYMMDD` rendering. -/
def ValidOSIDate (d : OSIDate) : Prop :=
  d.yy < 100 ∧ 1 ≤ d.mm ∧ d.mm ≤ 12 ∧ 1 ≤ d.dd ∧ d.dd ≤ 31

instance (d : OSIDate) : Decidable (ValidOSIDate d) :=
  inferInstanceAs (Decidable (_ ∧ _ ∧ _ ∧ _ ∧ _))

def optDateOk : Option OSIDate → Prop
  | some d => ValidOSIDate d
  | none => False

instance (o : Option OSIDate) : Decidable (optDateOk o) :=
  match o with
  | some _ => inferInstanceAs (Decidable (ValidOSIDate _))
  | none => inferInstanceAs (Decidable False)

def optStrikeOk : Option Nat → Prop
  | some sm => sm < 10 ^ 8
  | none => False

instance (o : Option Nat) : Decidable (optStrikeOk o) :=
  match o with
  | some _ => inferInstanceAs (Decidable (_ < _))
  | none => inferInstanceAs (Decidable False)

/-- A valid option identity: uppercase non-empty ticker, a date expiration,
CALL or PUT, and a strike whose ×1000 scaling fits the 8-digit field. -/
abbrev ValidOptionIdent (x : OSIIdent) : Prop :=
  x.ticker ≠ [] ∧ (∀ c ∈ x.ticker, isUpperC c = true) ∧
  (x.option = OptType.CALL ∨ x.option = OptType.PUT) ∧
  optDateOk x.expire ∧ optStrikeOk x.strikeMilli

theorem readFixed_padNum_exact (w n : Nat) (hn : n < 10 ^ w) :
    readFixed w (padNum w n) = some (n, []) := by
  have h := readFixed_padNum w n [] hn
  simpa using h

/-- The encoded option token decodes back to its fields. -/
theorem decodeOSI_encoded (tkr : List Char) (yy mm dd sm : Nat) (opt : OptType)
    (hupper : ∀ c ∈ tkr, isAlphaC c = true)
    (hyy : yy < 100) (hmm : mm < 100) (hdd : dd < 100) (hsm : sm < 10 ^ 8)
    (hopt : opt = OptType.CALL ∨ opt = OptType.PUT) :
    decodeOSI (tkr ++ (padNum 2 yy ++ (padNum 2 mm ++ (padNum 2 dd ++
        (optChar opt :: padNum 8 sm)))))
      = some ⟨tkr, some ⟨yy, mm, dd⟩, opt, some sm⟩ := by
  have h100 : (100 : ℕ) = 10 ^ 2 := by norm_num
  have hyd : yy / 10 < 10 := by omega
  have hRcons : padNum 2 yy ++ (padNum 2 mm ++ (padNum 2 dd ++ (optChar opt :: padNum 8 sm)))
      = digitChar (yy / 10) :: (padNum 1 (yy % 10 ^ 1) ++
        (padNum 2 mm ++ (padNum 2 dd ++ (optChar opt :: padNum 8 sm)))) := by
    have : padNum 2 yy = digitChar (yy / 10 ^ 1) :: padNum 1 (yy % 10 ^ 1) := rfl
    rw [this]
    norm_num
  have htake : (tkr ++ (padNum 2 yy ++ (padNum 2 mm ++ (padNum 2 dd ++
      (optChar opt :: padNum 8 sm))))).takeWhile isAlphaC = tkr := by
    rw [takeWhile_append_all _ _ hupper, hRcons,
      takeWhile_cons_neg _ (isAlphaC_digitChar _ hyd), List.append_nil]
  have hdrop : (tkr ++ (padNum 2 yy ++ (padNum 2 mm ++ (padNum 2 dd ++
      (optChar opt :: padNum 8 sm))))).dropWhile isAlphaC
      = padNum 2 yy ++ (padNum 2 mm ++ (padNum 2 dd ++ (optChar opt :: padNum 8 sm))) := by
    rw [dropWhile_append_all _ _ hupper, hRcons,
      dropWhile_cons_neg _ (isAlphaC_digitChar _ hyd), ← hRcons]
  have hany : (padNum 2 yy ++ (padNum 2 mm ++ (padNum 2 dd ++
      (optChar opt :: padNum 8 sm)))).any isDigitC = true := by
    rw [hRcons]
    simp [isDigitC_digitChar _ hyd]
  have hyy2 : yy < 10 ^ 2 := by norm_num; omega
  have hmm2 : mm < 10 ^ 2 := by norm_num; omega
  have hdd2 : dd < 10 ^ 2 := by norm_num; omega
  simp only [decodeOSI, htake, hdrop, hany, if_true]
  rw [readFixed_padNum 2 yy _ hyy2]
  simp only [Option.bind_eq_bind, Option.some_bind]
  rw [readFixed_padNum 2 mm _ hmm2]
  simp only [Option.bind_eq_bind, Option.some_bind]
  rw [readFixed_padNum 2 dd _ hdd2]
  simp only [Option.bind_eq_bind, Option.some_bind]
  rcases hopt with rfl | rfl <;>
    simp [parseOptChar, optChar, readFixed_padNum_exact 8 sm hsm]

/-- Decoding an encoded valid option identity recovers the identity. -/
theorem decode_encode_option (x : OSIIdent) (h : ValidOptionIdent x) :
    (osiEncode x).bind decodeOSI = some x := by
  obtain ⟨tkr, exp, opt, sms⟩ := x
  obtain ⟨hne, hupper, hopt, hdate, hstrike⟩ := h
  cases exp with
  | none => exact absurd hdate (by simp [optDateOk])
  | some d =>
    cases sms with
    | none => exact absurd hstrike (by simp [optStrikeOk])
    | some sm =>
      obtain ⟨yy, mm, dd⟩ := d
      simp only [optDateOk, ValidOSIDate] at hdate
      simp only [optStrikeOk] at hstrike
      obtain ⟨hyy, hmm1, hmm2, hdd1, hdd2⟩ := hdate
      simp only at hne hupper hopt
      have hcond : ¬((tkr : List Char) = [] ∨ 10 ^ 8 ≤ sm) := by
        push_neg
        exact ⟨hne, by omega⟩
      have halpha : ∀ c ∈ tkr, isAlphaC c = true :=
        fun c hc => isAlphaC_of_isUpperC (hupper c hc)
      have hdec := decodeOSI_encoded tkr yy mm dd sm opt halpha hyy (by omega) (by omega)
        hstrike hopt
      rcases hopt with rfl | rfl <;>
        simp only [osiEncode, if_neg hcond, Option.bind_eq_bind, Option.some_bind] <;>
        exact hdec

/-- Encoding the decode of an all-uppercase stock token returns the token. -/
theorem encode_decode_stock (tok : List Char) (h1 : tok ≠ [])
    (h2 : ∀ c ∈ tok, isUpperC c = true) :
    (decodeOSI tok).bind osiEncode = some tok := by
  have halpha : ∀ c ∈ tok, isAlphaC c = true := fun c hc => isAlphaC_of_isUpperC (h2 c hc)
  have hdrop : tok.dropWhile isAlphaC = [] := by
    have := dropWhile_append_all (p := isAlphaC) tok [] halpha
    simpa using this
  simp only [decodeOSI, hdrop, List.any_nil, Bool.false_eq_true, if_false]
  simp [osiEncode, h1]

theorem not_isDigitC_of_isAlphaC {c : Char} (h : isAlphaC c = true) : isDigitC c = false := by
  simp only [isAlphaC, Bool.or_eq_true, Bool.and_eq_true, decide_eq_true_eq] at h
  rw [Bool.eq_false_iff]
  intro hD
  simp only [isDigitC, Bool.and_eq_true, decide_eq_true_eq] at hD
  omega

/-- A token holds a digit iff a digit remains after stripping the leading
alphabetic run. -/
theorem any_digit_dropWhile (tok : List Char) :
    tok.any isDigitC = (tok.dropWhile isAlphaC).any isDigitC := by
  conv_lhs => rw [← List.takeWhile_append_dropWhile (p := isAlphaC) (l := tok)]
  rw [List.any_append]
  have hfalse : (tok.takeWhile isAlphaC).any isDigitC = false := by
    rw [List.any_eq_false]
    intro c hc
    simp only [Bool.not_eq_true]
    exact not_isDigitC_of_isAlphaC (List.mem_takeWhile_imp hc)
  rw [hfalse, Bool.false_or]

/-- C1: for every valid option contract identity, decoding the OSI token
produced by encoding it yields back the same ticker, expiration, option type
and strike; and for every stock token (bare uppercase ticker), encoding the
decoded identity returns the same ticker. -/
theorem osi_roundtrip_claim :
    (∀ x : OSIIdent, ValidOptionIdent x → (osiEncode x).bind decodeOSI = some x) ∧
    (∀ tok : List Char, tok ≠ [] → (∀ c ∈ tok, isUpperC c = true) →
      (decodeOSI tok).bind osiEncode = some tok) :=
  ⟨decode_encode_option, encode_decode_stock⟩

/-- Witness for C1 at the spec's own example, `AAPL 2025-06-20 CALL 150.000`,
and the stock token `MSFT`. -/
theorem osi_roundtrip_claim_witness :
    (osiEncode ⟨['A', 'A', 'P', 'L'], some ⟨25, 6, 20⟩, OptType.CALL, some 150000⟩).bind decodeOSI
        = some ⟨['A', 'A', 'P', 'L'], some ⟨25, 6, 20⟩, OptType.CALL, some 150000⟩ ∧
    (decodeOSI ['M', 'S', 'F', 'T']).bind osiEncode = some ['M', 'S', 'F', 'T'] :=
  ⟨osi_roundtrip_claim.1 _ (by decide), osi_roundtrip_claim.2 _ (by decide) (by decide)⟩

/-! ### `src/portfolio.py` symbol parsers -/

/-- `instrument_parser` of `src/portfolio.py`: a token with any digit is an
option, otherwise a stock. -/
def instrument_parserP (tok : List Char) : Instrument :=
  if tok.any isDigitC then Instrument.OPTION else Instrument.STOCK

/-- `ticker_parser` of `src/portfolio.py`. -/
def ticker_parserP (tok : List Char) : Option (List Char) :=
  if instrument_parserP tok = Instrument.OPTION then (decodeOSI tok).map OSIIdent.ticker
  else some (tok.map upperC)

/-- `expire_parser` of `src/portfolio.py`. -/
def expire_parserP (tok : List Char) : Option OSIDate :=
  if instrument_parserP tok = Instrument.OPTION then (decodeOSI tok).bind OSIIdent.expire
  else none

/-- `option_parser` of `src/portfolio.py`. -/
def option_parserP (tok : List Char) : Option OptType :=
  if instrument_parserP tok = Instrument.OPTION then (decodeOSI tok).map OSIIdent.option
  else some OptType.EMPTY

/-- `strike_parser` of `src/portfolio.py`. -/
def strike_parserP (tok : List Char) : Option Nat :=
  if instrument_parserP tok = Instrument.OPTION then (decodeOSI tok).bind OSIIdent.strikeMilli
  else none

/-- C9: the instrument parser classifies a token as an option exactly when a
digit remains after stripping the leading alphabetic run, equivalently iff
some character of the token is a digit; a stock token parses to its
uppercased ticker with no expiration, EMPTY option type and no strike. -/
theorem instrument_parser_claim (tok : List Char) :
    ((instrument_parserP tok = Instrument.OPTION) ↔
        (tok.dropWhile isAlphaC).any isDigitC = true) ∧
    ((instrument_parserP tok = Instrument.OPTION) ↔ tok.any isDigitC = true) ∧
    (instrument_parserP tok = Instrument.STOCK →
      ticker_parserP tok = some (tok.map upperC) ∧ expire_parserP tok = none ∧
      option_parserP tok = some OptType.EMPTY ∧ strike_parserP tok = none) := by
  have hiff : (instrument_parserP tok = Instrument.OPTION) ↔ tok.any isDigitC = true := by
    unfold instrument_parserP
    by_cases h : tok.any isDigitC = true <;> simp [h]
  refine ⟨?_, hiff, ?_⟩
  · rw [hiff, any_digit_dropWhile]
  · intro hstock
    have hnot : ¬(instrument_parserP tok = Instrument.OPTION) := by
      rw [hstock]; intro hc; exact Instrument.noConfusion hc
    simp [ticker_parserP, expire_parserP, option_parserP, strike_parserP, hnot]

/-- Witness for C9 at the stock token `msft`. -/
theorem instrument_parser_claim_witness :
    ticker_parserP ['m', 's', 'f', 't'] = some ['M', 'S', 'F', 'T'] := by
  have h := (instrument_parser_claim ['m', 's', 'f', 't']).2.2 (by decide)
  exact h.1.trans (by decide)

/-! ### Decimal price strings (integer cents) -/

def digitStep (a : Nat) (c : Char) : Nat := a * 10 + (c.toNat - 48)

theorem readNum_eq_foldl (cs : List Char) : readNum cs = cs.foldl digitStep 0 := rfl

/-- Integer rendering, as Python `str` of an integer. -/
def intToString (z : ℤ) : List Char :=
  if z < 0 then '-' :: natDigits z.natAbs else natDigits z.natAbs

/-- Model of Python `int(string)`. -/
def readInt (cs : List Char) : Option ℤ :=
  match cs with
  | [] => none
  | c :: t =>
      if c = '-' then
        if t ≠ [] ∧ t.all isDigitC then some (-(readNum t : ℤ)) else none
      else
        if (c :: t).all isDigitC then some ((readNum (c :: t) : ℤ)) else none

/-- Round half to even (the rounding of `numpy.round` and Python `round`). -/
def rhe (x : ℚ) : ℤ :=
  let f := ⌊x⌋
  if x - f < 1 / 2 then f
  else if 1 / 2 < x - f then f + 1
  else if f % 2 = 0 then f else f + 1

/-- `f"{price:.02f}"` on a price held as integer cents. -/
def formatCents (c : ℤ) : List Char :=
  (if c < 0 then ['-'] else []) ++ (natDigits (c.natAbs / 100) ++ ('.' :: padNum 2 (c.natAbs % 100)))

/-- Unsigned part of a decimal literal: digits, optionally `.` and digits. -/
def parseUnsigned (cs : List Char) : Option ℚ :=
  let ip := cs.takeWhile isDigitC
  let rest := cs.dropWhile isDigitC
  if ip = [] then none
  else
    match rest with
    | [] => some ((readNum ip : ℚ))
    | c :: fp =>
        if c = '.' ∧ fp ≠ [] ∧ fp.all isDigitC then
          some ((readNum ip : ℚ) + (readNum fp : ℚ) / 10 ^ fp.length)
        else none

/-- Model of Python `float(string)` on a plain decimal literal. -/
def parseDecimal (cs : List Char) : Option ℚ :=
  match cs with
  | [] => none
  | c :: t => if c = '-' then (parseUnsigned t).map (fun q => -q) else parseUnsigned (c :: t)

theorem foldl_padNum :
    ∀ w m a, m < 10 ^ w → (padNum w m).foldl digitStep a = a * 10 ^ w + m := by
  intro w
  induction w with
  | zero =>
      intro m a hm
      simp only [Nat.pow_zero] at hm
      interval_cases m
      simp [padNum]
  | succ w ih =>
      intro m a hm
      have hd : m / 10 ^ w < 10 := by
        apply Nat.div_lt_of_lt_mul
        rw [Nat.pow_succ] at hm; omega
      have hmod : m % 10 ^ w < 10 ^ w := Nat.mod_lt _ (by positivity)
      simp only [padNum, List.foldl_cons, digitStep, digitChar_toNat _ hd]
      rw [Nat.add_sub_cancel_left 48 _, ih _ _ hmod]
      have key : ∀ b d r : ℕ, (b * 10 + d) * 10 ^ w + r = b * 10 ^ (w + 1) + (10 ^ w * d + r) := by
        intro b d r; rw [Nat.pow_succ]; ring
      rw [key a (m / 10 ^ w) (m % 10 ^ w), Nat.div_add_mod]

theorem readNum_padNum (w m : Nat) (hm : m < 10 ^ w) : readNum (padNum w m) = m := by
  have h := foldl_padNum w m 0 hm
  simpa [readNum_eq_foldl] using h

theorem padNum_all_digits :
    ∀ w m, m < 10 ^ w → ∀ c ∈ padNum w m, isDigitC c = true := by
  intro w
  induction w with
  | zero => intro m _ c hc; simp [padNum] at hc
  | succ w ih =>
      intro m hm c hc
      have hd : m / 10 ^ w < 10 := by
        apply Nat.div_lt_of_lt_mul
        rw [Nat.pow_succ] at hm; omega
      have hmod : m % 10 ^ w < 10 ^ w := Nat.mod_lt _ (by positivity)
      simp only [padNum, List.mem_cons] at hc
      rcases hc with rfl | hc
      · exact isDigitC_digitChar _ hd
      · exact ih _ hmod c hc

theorem natDigitsAux_digits :
    ∀ fuel n, n < fuel → ∀ c ∈ natDigitsAux fuel n, isDigitC c = true := by
  intro fuel
  induction fuel with
  | zero => intro n h; omega
  | succ fuel ih =>
      intro n hn c hc
      by_cases h10 : n < 10
      · simp only [natDigitsAux, if_pos h10, List.mem_singleton] at hc
        subst hc
        exact isDigitC_digitChar n h10
      · have hrec : n / 10 < fuel := by
          have := Nat.div_lt_self (show 0 < n by omega) (show 1 < 10 by omega)
          omega
        simp only [natDigitsAux, if_neg h10, List.mem_append, List.mem_singleton] at hc
        rcases hc with hc | rfl
        · exact ih _ hrec c hc
        · exact isDigitC_digitChar _ (Nat.mod_lt _ (by omega))

theorem natDigitsAux_ne_nil : ∀ fuel n, n < fuel → natDigitsAux fuel n ≠ [] := by
  intro fuel
  induction fuel with
  | zero => intro n h; omega
  | succ fuel _ =>
      intro n _
      by_cases h10 : n < 10 <;> simp [natDigitsAux, h10]

theorem foldl_natDigitsAux :
    ∀ fuel n a, n < fuel →
      (natDigitsAux fuel n).foldl digitStep a = a * 10 ^ (natDigitsAux fuel n).length + n := by
  intro fuel
  induction fuel with
  | zero => intro n a h; omega
  | succ fuel ih =>
      intro n a hn
      by_cases h10 : n < 10
      · simp only [natDigitsAux, if_pos h10, List.foldl_cons, List.foldl_nil, digitStep,
          List.length_singleton, pow_one, digitChar_toNat n h10]
        omega
      · have hrec : n / 10 < fuel := by
          have := Nat.div_lt_self (show 0 < n by omega) (show 1 < 10 by omega)
          omega
        simp only [natDigitsAux, if_neg h10, List.foldl_append, List.foldl_cons,
          List.foldl_nil, List.length_append, List.length_singleton]
        rw [ih _ a hrec]
        simp only [digitStep, digitChar_toNat _ (Nat.mod_lt n (show 0 < 10 by omega))]
        rw [Nat.add_sub_cancel_left 48 _]
        have key : ∀ b L d r : ℕ, (b * 10 ^ L + d) * 10 + r = b * 10 ^ (L + 1) + (10 * d + r) := by
          intro b L d r; rw [Nat.pow_succ]; ring
        rw [key a _ (n / 10) (n % 10), Nat.div_add_mod]

theorem natDigits_digits (n : Nat) : ∀ c ∈ natDigits n, isDigitC c = true :=
  natDigitsAux_digits (n + 1) n (Nat.lt_succ_self n)

theorem natDigits_ne_nil (n : Nat) : natDigits n ≠ [] :=
  natDigitsAux_ne_nil (n + 1) n (Nat.lt_succ_self n)

theorem readNum_natDigits (n : Nat) : readNum (natDigits n) = n := by
  have h := foldl_natDigitsAux (n + 1) n 0 (Nat.lt_succ_self n)
  simpa [readNum_eq_foldl, natDigits] using h

theorem digit_ne_dash {c : Char} (h : isDigitC c = true) : c ≠ '-' := by
  intro hc
  subst hc
  simp [isDigitC] at h

theorem isDigitC_dot : isDigitC '.' = false := by decide

/-- `readInt` undoes `intToString`. -/
theorem readInt_intToString (z : ℤ) : readInt (intToString z) = some z := by
  by_cases hz : z < 0
  · obtain ⟨d, rest, hcons⟩ : ∃ d rest, natDigits z.natAbs = d :: rest := by
      cases hnd : natDigits z.natAbs with
      | nil => exact absurd hnd (natDigits_ne_nil _)
      | cons d rest => exact ⟨d, rest, rfl⟩
    simp only [intToString, if_pos hz, readInt, if_true]
    rw [if_pos ⟨natDigits_ne_nil z.natAbs, by
      rw [List.all_eq_true]; exact fun c hc => natDigits_digits _ c hc⟩]
    rw [readNum_natDigits]
    simp only [Option.some.injEq]
    omega
  · obtain ⟨d, rest, hcons⟩ : ∃ d rest, natDigits z.natAbs = d :: rest := by
      cases hnd : natDigits z.natAbs with
      | nil => exact absurd hnd (natDigits_ne_nil _)
      | cons d rest => exact ⟨d, rest, rfl⟩
    have hd : isDigitC d = true := natDigits_digits z.natAbs d (by rw [hcons]; simp)
    simp only [intToString, if_neg hz, hcons]
    simp only [readInt, if_neg (digit_ne_dash hd)]
    rw [if_pos (by
      rw [List.all_eq_true, ← hcons]
      exact fun c hc => natDigits_digits _ c hc)]
    rw [← hcons, readNum_natDigits]
    simp only [Option.some.injEq]
    omega

/-- `parseUnsigned` recovers `m / 100` from the digits-dot-two-digits form. -/
theorem parseUnsigned_cents (m : Nat) :
    parseUnsigned (natDigits (m / 100) ++ ('.' :: padNum 2 (m % 100))) = some ((m : ℚ) / 100) := by
  have hall : ∀ c ∈ natDigits (m / 100), isDigitC c = true := natDigits_digits _
  have htake : (natDigits (m / 100) ++ ('.' :: padNum 2 (m % 100))).takeWhile isDigitC
      = natDigits (m / 100) := by
    rw [takeWhile_append_all _ _ hall, takeWhile_cons_neg _ isDigitC_dot, List.append_nil]
  have hdrop : (natDigits (m / 100) ++ ('.' :: padNum 2 (m % 100))).dropWhile isDigitC
      = '.' :: padNum 2 (m % 100) := by
    rw [dropWhile_append_all _ _ hall, dropWhile_cons_neg _ isDigitC_dot]
  have hm2 : m % 100 < 10 ^ 2 := by
    rw [show (10 : ℕ) ^ 2 = 100 from by norm_num]
    exact Nat.mod_lt _ (by norm_num)
  have hfp : padNum 2 (m % 100) ≠ [] := by
    intro hc
    have hlen := padNum_length 2 (m % 100)
    rw [hc] at hlen
    simp at hlen
  simp only [parseUnsigned, htake, hdrop]
  rw [if_neg (natDigits_ne_nil (m / 100))]
  rw [if_pos ⟨trivial, hfp, by
    rw [List.all_eq_true]; exact fun c hc => padNum_all_digits 2 _ hm2 c hc⟩]
  rw [readNum_natDigits, readNum_padNum 2 _ hm2, padNum_length]
  rw [Option.some.injEq]
  have hdm : (100 : ℚ) * ((m / 100 : ℕ) : ℚ) + ((m % 100 : ℕ) : ℚ) = (m : ℚ) := by
    exact_mod_cast congrArg (Nat.cast : ℕ → ℚ) (Nat.div_add_mod m 100)
  rw [show ((10 : ℚ) ^ 2) = 100 by norm_num]
  linear_combination hdm / 100

/-- `parseDecimal` recovers the exact value of a formatted cents price. -/
theorem parseDecimal_formatCents (c : ℤ) :
    parseDecimal (formatCents c) = some ((c : ℚ) / 100) := by
  by_cases hc : c < 0
  · have habs : ((c.natAbs : ℚ)) = -(c : ℚ) := by
      rw [Int.cast_natAbs, abs_of_neg hc]
      push_cast
      ring
    simp only [formatCents, if_pos hc, List.singleton_append, parseDecimal]
    rw [if_true, parseUnsigned_cents, Option.map_some']
    rw [Option.some.injEq, habs]
    ring
  · have habs : ((c.natAbs : ℚ)) = (c : ℚ) := by
      rw [Int.cast_natAbs, abs_of_nonneg (not_lt.mp hc)]
    obtain ⟨d, rest, hcons⟩ : ∃ d rest, natDigits (c.natAbs / 100) = d :: rest := by
      cases hnd : natDigits (c.natAbs / 100) with
      | nil => exact absurd hnd (natDigits_ne_nil _)
      | cons d rest => exact ⟨d, rest, rfl⟩
    have hd : isDigitC d = true := natDigits_digits _ d (by rw [hcons]; simp)
    simp only [formatCents, if_neg hc, List.nil_append]
    rw [hcons, List.cons_append]
    simp only [parseDecimal]
    rw [if_neg (digit_ne_dash hd), ← List.cons_append, ← hcons, parseUnsigned_cents]
    rw [Option.some.injEq, habs]

/-! ### `src/orders.py`: order model, payload builder, acknowledgement parser -/

/-- `AlpacaSecurity` of `src/orders.py`: one stock/option leg. -/
structure AlpacaSecurity where
  ticker : List Char
  expire : Option OSIDate
  instrument : Instrument
  option : OptType
  position : Position
  strikeMilli : Option Nat
deriving DecidableEq, Repr

/-- `AlpacaOrder` of `src/orders.py`.  `limit`/`stop` are integer cents. -/
structure AlpacaOrder where
  size : ℤ
  term : Term
  tenure : Tenure
  limit : Option ℤ
  stop : Option ℤ
  securities : List AlpacaSecurity
deriving DecidableEq, Repr

/-- One entry of the payload's `legs` array. -/
structure OrderLeg where
  symbol : List Char
  side : String
  ratio_qty : List Char
deriving DecidableEq, Repr

/-- The wire payload built by `AlpacaOrderPayload` of `src/orders.py`. -/
structure OrderPayload where
  qty : List Char
  order_class : String
  type : String
  time_in_force : String
  limit_price : Option (List Char)
  stop_price : Option (List Char)
  legs : List OrderLeg
deriving DecidableEq, Repr

/-- `option_formatter` of `src/orders.py`: the OSI string of a security. -/
def option_formatterO (s : AlpacaSecurity) : Option (List Char) :=
  osiEncode ⟨s.ticker, s.expire, s.option, s.strikeMilli⟩

/-- `action_formatter` of `src/orders.py`. -/
def action_formatterO (s : AlpacaSecurity) : String :=
  match s.position with
  | Position.LONG => "buy"
  | Position.SHORT => "sell"

/-- `tenure_formatter` of `src/orders.py`. -/
def tenure_formatterO (o : AlpacaOrder) : String :=
  match o.tenure with
  | Tenure.DAY => "day"
  | Tenure.FILLKILL => "fok"

/-- `term_formatter` of `src/orders.py`; its dict lookup raises `KeyError`
for STOP and STOPLIMIT, modelled as `none`. -/
def term_formatterO (o : AlpacaOrder) : Option String :=
  match o.term with
  | Term.MARKET => some "market"
  | Term.LIMIT => some "limit"
  | _ => none

/-- `position_parser` of `src/orders.py` (dict lookup, `none` = `KeyError`). -/
def position_parserO : String → Option Position
  | "buy" => some Position.LONG
  | "sell" => some Position.SHORT
  | _ => none

/-- `term_parser` of `src/orders.py`. -/
def term_parserO : String → Option Term
  | "market" => some Term.MARKET
  | "limit" => some Term.LIMIT
  | _ => none

/-- `tenure_parser` of `src/orders.py`. -/
def tenure_parserO : String → Option Tenure
  | "day" => some Tenure.DAY
  | "fok" => some Tenure.FILLKILL
  | _ => none

def mapOpt (f : α → Option β) : List α → Option (List β)
  | [] => some []
  | x :: xs => do
      let y ← f x
      let ys ← mapOpt f xs
      pure (y :: ys)

/-- The `limit` lambda of `AlpacaOrderPayload`: emits `limit_price` iff the
term is LIMIT or STOPLIMIT; formatting a missing limit raises (`none`). -/
def limitField (o : AlpacaOrder) : Option (Option (List Char)) :=
  if o.term = Term.LIMIT ∨ o.term = Term.STOPLIMIT then
    match o.limit with
    | some c => some (some (formatCents c))
    | none => none
  else some none

/-- The `stop` lambda of `AlpacaOrderPayload`: emits `stop_price` iff the
term is STOP or STOPLIMIT. -/
def stopField (o : AlpacaOrder) : Option (Option (List Char)) :=
  if o.term = Term.STOP ∨ o.term = Term.STOPLIMIT then
    match o.stop with
    | some c => some (some (formatCents c))
    | none => none
  else some none

/-- One leg entry of `AlpacaOrderPayload.Securities`: `symbol` from
`option_formatter`, `side` from `action_formatter`, constant `ratio_qty`. -/
def securityLeg (s : AlpacaSecurity) : Option OrderLeg := do
  let sym ← option_formatterO s
  pure ⟨sym, action_formatterO s, ['1']⟩

/-- `buildPayload`: the wire object assembled by `AlpacaOrderPayload` of
`src/orders.py` from its field lambdas (`qty`, `order_class="mleg"`, `type`,
`time_in_force`, optional `limit_price`/`stop_price`, one leg per security). -/
def buildPayload (o : AlpacaOrder) : Option OrderPayload := do
  let ty ← term_formatterO o
  let lim ← limitField o
  let stp ← stopField o
  let legs ← mapOpt securityLeg o.securities
  pure ⟨intToString o.size, "mleg", ty, tenure_formatterO o, lim, stp, legs⟩

/-- One acknowledgement leg parsed by `AlpacaOrderData.Securities`:
ticker/expire/option/strike from the OSI symbol, position from `side`,
quantity from `ratio_qty`; the result keeps the six `AlpacaSecurity` fields
with `instrument = OPTION` forced. -/
def parseSecurity (l : OrderLeg) : Option AlpacaSecurity := do
  let i ← decodeOSI l.symbol
  let pos ← position_parserO l.side
  let _q ← readInt l.ratio_qty
  pure ⟨i.ticker, i.expire, Instrument.OPTION, i.option, pos, i.strikeMilli⟩

/-- `limit_parser`/`stop_parser` of `src/orders.py` applied to an optional
wire field: `None` passes through, a string is `np.round(float(s), 2)`,
held as integer cents. -/
def priceParse (s : Option (List Char)) : Option (Option ℤ) :=
  match s with
  | none => some none
  | some cs => (parseDecimal cs).map (fun q => some (rhe (100 * q)))

/-- `parseAcknowledgement`: `AlpacaOrderData.execute` of `src/orders.py`,
rebuilding an `AlpacaOrder` from the wire object. -/
def parseAck (p : OrderPayload) : Option AlpacaOrder := do
  let term ← term_parserO p.type
  let tenure ← tenure_parserO p.time_in_force
  let lim ← priceParse p.limit_price
  let stp ← priceParse p.stop_price
  let size ← readInt p.qty
  let secs ← mapOpt parseSecurity p.legs
  pure ⟨size, term, tenure, lim, stp, secs⟩

theorem rhe_intCast (z : ℤ) : rhe ((z : ℚ)) = z := by
  unfold rhe
  rw [Int.floor_intCast]
  norm_num

/-- Parsing back a formatted cents price is exact. -/
theorem priceParse_formatCents (c : ℤ) : priceParse (some (formatCents c)) = some (some c) := by
  simp only [priceParse, parseDecimal_formatCents, Option.map_some']
  have h : (100 : ℚ) * ((c : ℚ) / 100) = ((c : ℚ)) := by field_simp
  rw [h, rhe_intCast]

theorem mapOpt_eq_some_forall₂ {α β : Type} {f : α → Option β} :
    ∀ {xs : List α} {ys : List β}, mapOpt f xs = some ys →
      List.Forall₂ (fun x y => f x = some y) xs ys := by
  intro xs
  induction xs with
  | nil =>
      intro ys h
      simp only [mapOpt, Option.some.injEq] at h
      subst h
      exact List.Forall₂.nil
  | cons x xs ih =>
      intro ys h
      simp only [mapOpt, Option.bind_eq_bind, Option.bind_eq_some, Option.pure_def,
        Option.some.injEq] at h
      obtain ⟨y, hy, ys', hys', hcons⟩ := h
      subst hcons
      exact List.Forall₂.cons hy (ih hys')

/-- C2: the wire object built from an order carries `qty` (the size as a
string), `order_class = "mleg"`, the `type`/`time_in_force` renderings, one
leg per security with its OSI `symbol`, `side` and `ratio_qty`, and has
`limit_price` iff the term is LIMIT or STOPLIMIT and `stop_price` iff the
term is STOP or STOPLIMIT. -/
theorem buildPayload_claim (o : AlpacaOrder) (p : OrderPayload) (h : buildPayload o = some p) :
    p.qty = intToString o.size ∧
    p.order_class = "mleg" ∧
    (o.term = Term.MARKET → p.type = "market") ∧
    (o.term = Term.LIMIT → p.type = "limit") ∧
    (o.tenure = Tenure.DAY → p.time_in_force = "day") ∧
    (o.tenure = Tenure.FILLKILL → p.time_in_force = "fok") ∧
    List.Forall₂ (fun s l => option_formatterO s = some l.symbol ∧
      (s.position = Position.LONG → l.side = "buy") ∧
      (s.position = Position.SHORT → l.side = "sell") ∧ l.ratio_qty = ['1'])
      o.securities p.legs ∧
    (p.limit_price.isSome ↔ (o.term = Term.LIMIT ∨ o.term = Term.STOPLIMIT)) ∧
    (p.stop_price.isSome ↔ (o.term = Term.STOP ∨ o.term = Term.STOPLIMIT)) := by
  simp only [buildPayload, Option.bind_eq_bind, Option.bind_eq_some, Option.pure_def,
    Option.some.injEq] at h
  obtain ⟨ty, hty, lim, hlim, stp, hstp, legs, hlegs, hp⟩ := h
  subst hp
  refine ⟨rfl, rfl, ?_, ?_, ?_, ?_, ?_, ?_, ?_⟩
  · intro hterm
    simp only [term_formatterO, hterm, Option.some.injEq] at hty
    exact hty.symm
  · intro hterm
    simp only [term_formatterO, hterm, Option.some.injEq] at hty
    exact hty.symm
  · intro ht
    simp [tenure_formatterO, ht]
  · intro ht
    simp [tenure_formatterO, ht]
  · refine List.Forall₂.imp ?_ (mapOpt_eq_some_forall₂ hlegs)
    intro s l hsl
    simp only [securityLeg, Option.bind_eq_bind, Option.bind_eq_some, Option.pure_def,
      Option.some.injEq] at hsl
    obtain ⟨sym, hsym, hl⟩ := hsl
    subst hl
    refine ⟨by simpa using hsym, ?_, ?_, rfl⟩
    · intro hpos
      simp [action_formatterO, hpos]
    · intro hpos
      simp [action_formatterO, hpos]
  · by_cases hc : o.term = Term.LIMIT ∨ o.term = Term.STOPLIMIT
    · simp only [limitField, if_pos hc] at hlim
      cases hol : o.limit with
      | none => rw [hol] at hlim; simp at hlim
      | some v =>
          rw [hol] at hlim
          simp only [Option.some.injEq] at hlim
          subst hlim
          simpa using hc
    · simp only [limitField, if_neg hc] at hlim
      simp only [Option.some.injEq] at hlim
      subst hlim
      simpa using hc
  · by_cases hc : o.term = Term.STOP ∨ o.term = Term.STOPLIMIT
    · simp only [stopField, if_pos hc] at hstp
      cases hos : o.stop with
      | none => rw [hos] at hstp; simp at hstp
      | some v =>
          rw [hos] at hstp
          simp only [Option.some.injEq] at hstp
          subst hstp
          simpa using hc
    · simp only [stopField, if_neg hc] at hstp
      simp only [Option.some.injEq] at hstp
      subst hstp
      simpa using hc

/-- A concrete one-leg LIMIT order for witnesses. -/
def exSecurity : AlpacaSecurity :=
  ⟨['A', 'A', 'P', 'L'], some ⟨25, 6, 20⟩, Instrument.OPTION, OptType.CALL,
    Position.LONG, some 150000⟩

def exOrder : AlpacaOrder := ⟨1, Term.LIMIT, Tenure.DAY, some 125, none, [exSecurity]⟩

def exPayload : OrderPayload :=
  ⟨['1'], "mleg", "limit", "day", some ['1', '.', '2', '5'], none,
    [⟨['A', 'A', 'P', 'L', '2', '5', '0', '6', '2', '0', 'C',
        '0', '0', '1', '5', '0', '0', '0', '0'], "buy", ['1']⟩]⟩

/-- Witness for C2 on a concrete LIMIT order. -/
theorem buildPayload_claim_witness :
    buildPayload exOrder = some exPayload ∧
    (exPayload.limit_price.isSome ↔
      (exOrder.term = Term.LIMIT ∨ exOrder.term = Term.STOPLIMIT)) :=
  ⟨by decide, (buildPayload_claim exOrder exPayload (by decide)).2.2.2.2.2.2.2.1⟩

/-- A valid option security: encodable into an OSI token. -/
def ValidSec (s : AlpacaSecurity) : Prop :=
  ValidOptionIdent ⟨s.ticker, s.expire, s.option, s.strikeMilli⟩

instance (s : AlpacaSecurity) : Decidable (ValidSec s) :=
  inferInstanceAs (Decidable (ValidOptionIdent _))

theorem readInt_one : readInt ['1'] = some 1 := by decide

theorem position_parserO_buy : position_parserO "buy" = some Position.LONG := by decide

theorem position_parserO_sell : position_parserO "sell" = some Position.SHORT := by decide

/-- A valid security's payload leg parses back to the same security fields,
with `instrument` forced to OPTION. -/
theorem parseSecurity_securityLeg (s : AlpacaSecurity) (h : ValidSec s) :
    ∃ l, securityLeg s = some l ∧
      parseSecurity l
        = some ⟨s.ticker, s.expire, Instrument.OPTION, s.option, s.position, s.strikeMilli⟩ := by
  have hrt := decode_encode_option _ h
  cases henc : osiEncode ⟨s.ticker, s.expire, s.option, s.strikeMilli⟩ with
  | none => rw [henc] at hrt; simp at hrt
  | some tok =>
      rw [henc] at hrt
      simp only [Option.bind_eq_bind, Option.some_bind] at hrt
      refine ⟨⟨tok, action_formatterO s, ['1']⟩, ?_, ?_⟩
      · simp only [securityLeg, option_formatterO, henc, Option.bind_eq_bind,
          Option.some_bind, Option.pure_def]
      · cases hp : s.position <;>
          simp [parseSecurity, hrt, action_formatterO, hp, readInt_one,
            position_parserO_buy, position_parserO_sell]

/-- Per-leg round trip lifted to lists of securities. -/
theorem legs_roundtrip :
    ∀ ss : List AlpacaSecurity, (∀ s ∈ ss, ValidSec s) →
      ∃ ls, mapOpt securityLeg ss = some ls ∧
        mapOpt parseSecurity ls
          = some (ss.map (fun s =>
              (⟨s.ticker, s.expire, Instrument.OPTION, s.option, s.position, s.strikeMilli⟩ :
                AlpacaSecurity))) := by
  intro ss
  induction ss with
  | nil => intro _; exact ⟨[], rfl, rfl⟩
  | cons s ss ih =>
      intro h
      obtain ⟨l, hl, hpl⟩ := parseSecurity_securityLeg s (h s (by simp))
      obtain ⟨ls, hls, hpls⟩ := ih (fun a ha => h a (by simp [ha]))
      refine ⟨l :: ls, ?_, ?_⟩
      · simp only [mapOpt, hl, hls, Option.bind_eq_bind, Option.some_bind, Option.pure_def]
      · simp only [mapOpt, hpl, hpls, Option.bind_eq_bind, Option.some_bind,
          Option.pure_def, List.map_cons]

theorem tenure_parser_formatter (o : AlpacaOrder) :
    tenure_parserO (tenure_formatterO o) = some o.tenure := by
  cases ht : o.tenure <;> simp [tenure_formatterO, tenure_parserO, ht]

/-- C3: for a MARKET or LIMIT order with well-formed legs, parsing the
acknowledgement payload built from it reproduces the same legs (ticker,
expiration, option type, strike, position, in order), the same term and
tenure, and for LIMIT the same limit price. -/
theorem order_roundtrip_claim (o : AlpacaOrder)
    (hterm : o.term = Term.MARKET ∨ o.term = Term.LIMIT)
    (hlim : o.term = Term.LIMIT → o.limit.isSome = true)
    (hsec : ∀ s ∈ o.securities, ValidSec s) :
    ∃ p o', buildPayload o = some p ∧ parseAck p = some o' ∧
      o'.securities.map (fun s => (s.ticker, s.expire, s.option, s.strikeMilli, s.position))
        = o.securities.map (fun s => (s.ticker, s.expire, s.option, s.strikeMilli, s.position)) ∧
      o'.term = o.term ∧ o'.tenure = o.tenure ∧
      (o.term = Term.LIMIT → o'.limit = o.limit) := by
  obtain ⟨ls, hls, hpls⟩ := legs_roundtrip o.securities hsec
  have hmapeq :
      (o.securities.map (fun s =>
          (⟨s.ticker, s.expire, Instrument.OPTION, s.option, s.position, s.strikeMilli⟩ :
            AlpacaSecurity))).map
        (fun s => (s.ticker, s.expire, s.option, s.strikeMilli, s.position))
      = o.securities.map (fun s => (s.ticker, s.expire, s.option, s.strikeMilli, s.position)) := by
    rw [List.map_map]
    rfl
  rcases hterm with hm | hm
  · refine ⟨⟨intToString o.size, "mleg", "market", tenure_formatterO o, none, none, ls⟩,
      ⟨o.size, Term.MARKET, o.tenure, none, none, _⟩, ?_, ?_, hmapeq, hm.symm, rfl, ?_⟩
    · simp only [buildPayload, term_formatterO, limitField, stopField, hm, hls,
        Option.bind_eq_bind, Option.some_bind, Option.pure_def]
      rw [if_neg (show ¬(Term.MARKET = Term.LIMIT ∨ Term.MARKET = Term.STOPLIMIT) from by decide)]
      rw [if_neg (show ¬(Term.MARKET = Term.STOP ∨ Term.MARKET = Term.STOPLIMIT) from by decide)]
      rfl
    · simp only [parseAck, term_parserO, tenure_parser_formatter, priceParse,
        readInt_intToString, hpls, Option.bind_eq_bind, Option.some_bind, Option.pure_def]
    · intro hcon
      rw [hm] at hcon
      exact absurd hcon (by decide)
  · obtain ⟨v, hv⟩ := Option.isSome_iff_exists.mp (hlim hm)
    refine ⟨⟨intToString o.size, "mleg", "limit", tenure_formatterO o,
      some (formatCents v), none, ls⟩,
      ⟨o.size, Term.LIMIT, o.tenure, some v, none, _⟩, ?_, ?_, hmapeq, hm.symm, rfl, ?_⟩
    · simp only [buildPayload, term_formatterO, limitField, stopField, hm, hv, hls,
        Option.bind_eq_bind, Option.some_bind, Option.pure_def]
      rw [if_neg (show ¬(Term.LIMIT = Term.STOP ∨ Term.LIMIT = Term.STOPLIMIT) from by decide)]
      rfl
    · simp only [parseAck, term_parserO, tenure_parser_formatter,
        priceParse_formatCents, show priceParse none = some none from rfl,
        readInt_intToString, hpls,
        Option.bind_eq_bind, Option.some_bind, Option.pure_def]
    · intro _
      rw [hv]

/-- Witness for C3 on the concrete LIMIT order. -/
theorem order_roundtrip_claim_witness :
    ∃ p o', buildPayload exOrder = some p ∧ parseAck p = some o' ∧
      o'.securities.map (fun s => (s.ticker, s.expire, s.option, s.strikeMilli, s.position))
        = exOrder.securities.map
            (fun s => (s.ticker, s.expire, s.option, s.strikeMilli, s.position)) ∧
      o'.term = exOrder.term ∧ o'.tenure = exOrder.tenure ∧
      (exOrder.term = Term.LIMIT → o'.limit = exOrder.limit) :=
  order_roundtrip_claim exOrder (Or.inr rfl) (fun _ => by decide) (by decide)

/-! ### `AlpacaOrderUploader.orders` of `src/orders.py` -/

/-- The fields of one prospect row consumed by `AlpacaOrderUploader.orders`. -/
structure Prospect where
  spot : ℚ
  size : ℚ
  securities : List AlpacaSecurity
deriving DecidableEq

/-- One iteration of `AlpacaOrderUploader.orders` (`src/orders.py`):
`price = -np.round(spot, 2)` (cents), `size = np.round(size, 0)`,
`AlpacaOrder(size=size, limit=price, stop=None, term=term, tenure=tenure, …)`. -/
def prospectOrder (term : Term) (tenure : Tenure) (p : Prospect) : AlpacaOrder :=
  ⟨rhe p.size, term, tenure, some (-(rhe (100 * p.spot))), none, p.securities⟩

/-- C10: the order built from a prospect has `limit = -round(spot, 2)`,
`stop = None`, `size = round(size, 0)`; for a LIMIT order the payload's
`limit_price` is that negated rounded spot formatted to two decimals. -/
theorem uploader_order_claim (term : Term) (tenure : Tenure) (p : Prospect) :
    (prospectOrder term tenure p).limit = some (-(rhe (100 * p.spot))) ∧
    (prospectOrder term tenure p).stop = none ∧
    (prospectOrder term tenure p).size = rhe p.size ∧
    (∀ pay, buildPayload (prospectOrder Term.LIMIT tenure p) = some pay →
      pay.limit_price = some (formatCents (-(rhe (100 * p.spot))))) := by
  refine ⟨rfl, rfl, rfl, ?_⟩
  intro pay h
  simp only [buildPayload, Option.bind_eq_bind, Option.bind_eq_some, Option.pure_def,
    Option.some.injEq] at h
  obtain ⟨ty, _, lim, hlim, stp, _, legs, _, hp⟩ := h
  have hlf : limitField (prospectOrder Term.LIMIT tenure p)
      = some (some (formatCents (-(rhe (100 * p.spot))))) := by
    simp [limitField, prospectOrder]
  rw [hlf, Option.some.injEq] at hlim
  subst hlim
  subst hp
  rfl

/-- The prospect row used in the C10 witness: spot 1.25, size 2.4. -/
def exProspect : Prospect := ⟨5 / 4, 12 / 5, [exSecurity]⟩

/-- The payload of the C10 witness order. -/
def exPayload10 : OrderPayload :=
  ⟨['2'], "mleg", "limit", "day", some ['-', '1', '.', '2', '5'], none,
    [⟨['A', 'A', 'P', 'L', '2', '5', '0', '6', '2', '0', 'C',
        '0', '0', '1', '5', '0', '0', '0', '0'], "buy", ['1']⟩]⟩

/-- Witness for C10 at the concrete prospect. -/
theorem uploader_order_claim_witness :
    (prospectOrder Term.LIMIT Tenure.DAY exProspect).limit
        = some (-(rhe (100 * exProspect.spot))) ∧
    exPayload10.limit_price = some (formatCents (-(rhe (100 * exProspect.spot)))) :=
  ⟨(uploader_order_claim Term.LIMIT Tenure.DAY exProspect).1,
   (uploader_order_claim Term.LIMIT Tenure.DAY exProspect).2.2.2 exPayload10 (by
      have h1 : rhe (100 * exProspect.spot) = 125 := by norm_num [rhe, exProspect]
      have h2 : rhe exProspect.size = 2 := by norm_num [rhe, exProspect]
      have h3 : prospectOrder Term.LIMIT Tenure.DAY exProspect
          = ⟨2, Term.LIMIT, Tenure.DAY, some (-125), none, [exSecurity]⟩ := by
        simp only [prospectOrder, h1, h2]
        exact congrArg _ rfl
      rw [h3]
      decide)⟩

/-! ### `src/market.py`: trade/quote reconciliation

Both `AlpacaStockDownloader.download` and `AlpacaOptionDownloader.download`
run `quote.merge(trade, how="outer", on=keys, sort=False, suffixes=("", "_"))`
and then select `header = trade.columns + (quote-only columns)`.  Because the
left (quote) frame keeps the unsuffixed column names and both feeds carry the
same columns, the selected values are the QUOTE feed's; the trade feed
contributes only additional join keys.  A missing value (`NaN`) is `none`;
the join key (`Querys.Symbol` / `Querys.Contract`) is modelled as the
`ticker` field. -/

/-- One row of a trade or quote feed (`market_parser` fields). -/
structure MarketRow where
  ticker : String
  last : Option ℚ
  bid : Option ℚ
  ask : Option ℚ
  supply : Option ℚ
  demand : Option ℚ
deriving DecidableEq, Repr

/-- `np.round(x, 2)` on a rational. -/
def rheTo2 (x : ℚ) : ℚ := ((rhe (100 * x) : ℤ) : ℚ) / 100

/-- The `average` lambda: `np.round((ask + bid) / 2, 2)`, `NaN` if either
side is missing. -/
def average (b a : Option ℚ) : Option ℚ :=
  match b, a with
  | some bv, some av => some (rheTo2 ((av + bv) / 2))
  | _, _ => none

/-- The row-wise `last` fallback applied by `download`:
`average(cols) if isnan(cols["last"]) else cols["last"]`. -/
def fixLast (r : MarketRow) : MarketRow :=
  { r with last := if r.last.isSome then r.last else average r.bid r.ask }

/-- The all-`NaN` data carried by a key present only in the trade feed. -/
def emptyRow (t : String) : MarketRow := ⟨t, none, none, none, none, none⟩

/-- `download` of `AlpacaStockDownloader`/`AlpacaOptionDownloader`
(`src/market.py`): empty result if either feed is empty; otherwise the outer
merge keyed on `ticker` with the quote feed's columns selected, followed by
the `last` fallback.  Row order: quote rows in order, then unmatched trade
keys in order. -/
def download (trade quote : List MarketRow) : List MarketRow :=
  if trade.isEmpty || quote.isEmpty then []
  else
    (quote.map fixLast) ++
      ((trade.filter (fun t => !(quote.any (fun q => q.ticker == t.ticker)))).map
        (fun t => fixLast (emptyRow t.ticker)))

/-- The trade row `{MSFT, last 420.10}` of the C4 scenario. -/
def tRowC4 : MarketRow := ⟨"MSFT", some (4201 / 10), none, none, none, none⟩

/-- The quote row `{MSFT, bid 419.50, ask 420.50}` (no last). -/
def qRowC4 : MarketRow := ⟨"MSFT", none, some (839 / 2), some (841 / 2), none, none⟩

/-- C4 counterexample: with trade `last = 420.10` and quote
`bid/ask = 419.50/420.50`, the reconciled `last` is `420.00`, not the
trade feed's `420.10` as the claim states. -/
theorem reconcile_last_counterexample :
    (download [tRowC4] [qRowC4]).map MarketRow.last = [some (420 : ℚ)] ∧
    some ((420 : ℚ)) ≠ some ((4201 / 10 : ℚ)) := by
  constructor
  · have havg : rheTo2 (((841 / 2 : ℚ) + 839 / 2) / 2) = 420 := by
      norm_num [rheTo2, rhe]
    simp [download, tRowC4, qRowC4, fixLast, average, havg]
  · norm_num

theorem download_nonempty_eq (trade quote : List MarketRow) (ht : trade ≠ [])
    (hq : quote ≠ []) :
    download trade quote =
      (quote.map fixLast) ++
        ((trade.filter (fun t => !(quote.any (fun q => q.ticker == t.ticker)))).map
          (fun t => fixLast (emptyRow t.ticker))) := by
  have hcond : (trade.isEmpty || quote.isEmpty) = false := by
    simp [List.isEmpty_iff, ht, hq]
  rw [download, hcond]
  rfl

/-- C4 amended: for non-empty feeds, the reconciled row for the `i`-th quote
row takes the QUOTE feed's `last` when present, else the rounded average of
the QUOTE feed's bid and ask; the trade feed's `last` is never consulted. -/
theorem reconcile_last_amended (trade quote : List MarketRow) (ht : trade ≠ [])
    (i : Nat) (q : MarketRow) (hq : quote[i]? = some q) :
    ((download trade quote)[i]?).map MarketRow.last =
      some (if q.last.isSome then q.last else average q.bid q.ask) := by
  have hi : i < quote.length := by
    by_contra hcon
    rw [List.getElem?_eq_none (by omega)] at hq
    cases hq
  have hqne : quote ≠ [] := by
    intro hnil
    rw [hnil] at hi
    simp at hi
  rw [download_nonempty_eq trade quote ht hqne]
  rw [List.getElem?_append_left (by simpa using hi), List.getElem?_map, hq]
  rfl

/-- Witness for C4 amended at the concrete rows. -/
theorem reconcile_last_amended_witness :
    ((download [tRowC4] [qRowC4])[0]?).map MarketRow.last =
      some (if qRowC4.last.isSome then qRowC4.last else average qRowC4.bid qRowC4.ask) :=
  reconcile_last_amended [tRowC4] [qRowC4] (List.cons_ne_nil _ _) 0 qRowC4 rfl

/-- Trade row with `supply = 10` for the C5 scenario. -/
def tRowC5 : MarketRow := ⟨"MSFT", some 1, none, none, some 10, none⟩

/-- Quote row with `supply = 20` for the C5 scenario. -/
def qRowC5 : MarketRow := ⟨"MSFT", some 2, some 1, some 1, some 20, none⟩

/-- C5 counterexample: for the shared `supply` column the reconciled row
carries the quote feed's 20, not the trade feed's 10 as the claim states. -/
theorem reconcile_columns_counterexample :
    (download [tRowC5] [qRowC5]).map MarketRow.supply = [some (20 : ℚ)] ∧
    some ((20 : ℚ)) ≠ some ((10 : ℚ)) := by
  constructor
  · simp [download, tRowC5, qRowC5, fixLast]
  · norm_num

/-- C5 amended: for non-empty feeds, every shared data column of the
reconciled row for the `i`-th quote row carries the QUOTE feed's value. -/
theorem reconcile_columns_amended (trade quote : List MarketRow) (ht : trade ≠ [])
    (i : Nat) (q : MarketRow) (hq : quote[i]? = some q) :
    ((download trade quote)[i]?).map MarketRow.ticker = some q.ticker ∧
    ((download trade quote)[i]?).map MarketRow.bid = some q.bid ∧
    ((download trade quote)[i]?).map MarketRow.ask = some q.ask ∧
    ((download trade quote)[i]?).map MarketRow.supply = some q.supply ∧
    ((download trade quote)[i]?).map MarketRow.demand = some q.demand := by
  have hi : i < quote.length := by
    by_contra hcon
    rw [List.getElem?_eq_none (by omega)] at hq
    cases hq
  have hqne : quote ≠ [] := by
    intro hnil
    rw [hnil] at hi
    simp at hi
  rw [download_nonempty_eq trade quote ht hqne]
  rw [List.getElem?_append_left (by simpa using hi), List.getElem?_map, hq]
  exact ⟨rfl, rfl, rfl, rfl, rfl⟩

/-- Witness for C5 amended at the concrete rows. -/
theorem reconcile_columns_amended_witness :
    ((download [tRowC5] [qRowC5])[0]?).map MarketRow.supply = some qRowC5.supply :=
  (reconcile_columns_amended [tRowC5] [qRowC5] (List.cons_ne_nil _ _) 0 qRowC5 rfl).2.2.2.1

/-- C8 counterexample: with a non-empty trade feed and an empty quote feed
the reconciliation returns no rows at all — the trade-only key does not
produce an output row, contrary to the claim. -/
theorem reconcile_empty_counterexample : download [tRowC4] [] = [] := rfl

/-- C8 amended: reconciliation is total and never fails; when both feeds are
non-empty every quote row yields an output row, and a trade key matched by
no quote key still yields an output row, carrying the all-unset data of the
missing quote side (`last` undefined). -/
theorem reconcile_missing_amended (trade quote : List MarketRow) (ht : trade ≠ [])
    (hq : quote ≠ []) :
    (∀ q ∈ quote, fixLast q ∈ download trade quote) ∧
    (∀ t ∈ trade, (∀ q ∈ quote, q.ticker ≠ t.ticker) →
      emptyRow t.ticker ∈ download trade quote) := by
  rw [download_nonempty_eq trade quote ht hq]
  constructor
  · intro q hqm
    exact List.mem_append_left _ (List.mem_map_of_mem _ hqm)
  · intro t htm hnone
    apply List.mem_append_right
    have hfix : fixLast (emptyRow t.ticker) = emptyRow t.ticker := rfl
    rw [← hfix]
    apply List.mem_map_of_mem
    rw [List.mem_filter]
    refine ⟨htm, ?_⟩
    simp only [Bool.not_eq_true']
    rw [List.any_eq_false]
    intro q hqm hbeq
    exact hnone q hqm (eq_of_beq hbeq)

/-- Trade row for a key (`AAPL`) absent from the quote feed. -/
def tRowC8 : MarketRow := ⟨"AAPL", some 1, none, none, none, none⟩

/-- Witness for C8 amended: the quote row and the trade-only key both
produce output rows. -/
theorem reconcile_missing_amended_witness :
    fixLast qRowC4 ∈ download [tRowC8] [qRowC4] ∧
    emptyRow tRowC8.ticker ∈ download [tRowC8] [qRowC4] :=
  ⟨(reconcile_missing_amended [tRowC8] [qRowC4] (List.cons_ne_nil _ _)
      (List.cons_ne_nil _ _)).1 qRowC4 (List.mem_singleton_self _),
   (reconcile_missing_amended [tRowC8] [qRowC4] (List.cons_ne_nil _ _)
      (List.cons_ne_nil _ _)).2 tRowC8 (List.mem_singleton_self _)
      (fun q hqm => by
        rw [List.mem_singleton.mp hqm]
        decide)⟩

/-! ### `src/market.py`: contract chain download and sorting -/

/-- `Querys.Contract` as parsed by `AlpacaContractData` of `src/market.py`:
underlying ticker, expiration (as an ordinal day), CALL/PUT, strike in
milli-dollars. -/
structure Contract where
  ticker : String
  expire : Nat
  option : OptType
  strikeMilli : Nat
deriving DecidableEq, Repr

/-- The sort key used by `AlpacaContractDownloader.download`
(`contracts.sort(key=lambda contract: contract.expire)`): expiration only. -/
def expireLe (a b : Contract) : Prop := a.expire ≤ b.expire

instance : DecidableRel expireLe := fun a b => Nat.decLe a.expire b.expire

instance : IsTotal Contract expireLe := ⟨fun a b => Nat.le_total a.expire b.expire⟩

instance : IsTrans Contract expireLe := ⟨fun _ _ _ h1 h2 => Nat.le_trans h1 h2⟩

/-- `AlpacaContractDownloader.download` of `src/market.py`: a stable sort of
the fetched contracts by expiration (Python `list.sort` is stable). -/
def downloadContracts (contracts : List Contract) : List Contract :=
  List.insertionSort expireLe contracts

/-- C7 counterexample: two contracts with equal expiration keep their
server-returned order, so the output is not sorted by strike within an
expiration and is not independent of the server order. -/
theorem contract_sort_counterexample :
    downloadContracts [⟨"T", 1, OptType.CALL, 105000⟩, ⟨"T", 1, OptType.CALL, 100000⟩]
        = [⟨"T", 1, OptType.CALL, 105000⟩, ⟨"T", 1, OptType.CALL, 100000⟩] ∧
    downloadContracts [⟨"T", 1, OptType.CALL, 100000⟩, ⟨"T", 1, OptType.CALL, 105000⟩]
        = [⟨"T", 1, OptType.CALL, 100000⟩, ⟨"T", 1, OptType.CALL, 105000⟩] ∧
    downloadContracts [⟨"T", 1, OptType.CALL, 105000⟩, ⟨"T", 1, OptType.CALL, 100000⟩]
        ≠ downloadContracts [⟨"T", 1, OptType.CALL, 100000⟩, ⟨"T", 1, OptType.CALL, 105000⟩] := by
  refine ⟨by decide, by decide, by decide⟩

theorem orderedInsert_filter_pos (e : Nat) (a : Contract) (ha : a.expire = e) :
    ∀ l : List Contract,
      (List.orderedInsert expireLe a l).filter (fun c => c.expire == e)
        = a :: l.filter (fun c => c.expire == e) := by
  intro l
  induction l with
  | nil => simp [List.orderedInsert, List.filter_cons, ha]
  | cons b l ih =>
      by_cases hr : expireLe a b
      · rw [List.orderedInsert_of_le expireLe _ hr]
        simp [List.filter_cons, ha]
      · simp only [List.orderedInsert, if_neg hr]
        have hb : (b.expire == e) = false := by
          rw [beq_eq_false_iff_ne]
          intro hbe
          exact hr (by simp [expireLe, hbe, ha])
        simp only [List.filter_cons, hb, Bool.false_eq_true, if_false]
        exact ih

theorem orderedInsert_filter_neg (e : Nat) (a : Contract) (ha : ¬ a.expire = e) :
    ∀ l : List Contract,
      (List.orderedInsert expireLe a l).filter (fun c => c.expire == e)
        = l.filter (fun c => c.expire == e) := by
  intro l
  have hb : (a.expire == e) = false := beq_eq_false_iff_ne.mpr ha
  induction l with
  | nil => simp [List.orderedInsert, List.filter_cons, hb]
  | cons b l ih =>
      by_cases hr : expireLe a b
      · rw [List.orderedInsert_of_le expireLe _ hr]
        simp only [List.filter_cons, hb, Bool.false_eq_true, if_false]
      · simp only [List.orderedInsert, if_neg hr, List.filter_cons]
        by_cases hbe : (b.expire == e) = true <;> simp [hbe, ih]

theorem insertionSort_filter_expire (e : Nat) :
    ∀ l : List Contract,
      (downloadContracts l).filter (fun c => c.expire == e)
        = l.filter (fun c => c.expire == e) := by
  intro l
  induction l with
  | nil => rfl
  | cons a l ih =>
      show (List.orderedInsert expireLe a (List.insertionSort expireLe l)).filter
          (fun c => c.expire == e) = _
      unfold downloadContracts at ih
      by_cases ha : a.expire = e
      · rw [orderedInsert_filter_pos e a ha, ih]
        simp [List.filter_cons, ha]
      · rw [orderedInsert_filter_neg e a ha, ih]
        have hb : (a.expire == e) = false := beq_eq_false_iff_ne.mpr ha
        simp [List.filter_cons, hb]

/-- C7 amended: the downloaded chain is sorted by expiration ascending and
is a permutation of the fetched contracts; the sort is stable — within one
expiration the server-returned order is kept (strike and option type are not
sort keys). -/
theorem contract_sort_amended (l : List Contract) :
    List.Sorted expireLe (downloadContracts l) ∧
    (downloadContracts l).Perm l ∧
    ∀ e, (downloadContracts l).filter (fun c => c.expire == e)
        = l.filter (fun c => c.expire == e) :=
  ⟨List.sorted_insertionSort expireLe l, List.perm_insertionSort expireLe l,
   fun e => insertionSort_filter_expire e l⟩

/-! ### `src/market.py`: cursor pagination (`AlpacaContractPage.execute`) -/

inductive PageErr
  | typeError
  | fuelExhausted
deriving DecidableEq, Repr

/-- Result of a page-execute call. -/
inductive PageResult
  | ok (items : List Contract)
  | err (e : PageErr)
deriving DecidableEq, Repr

/-- Python truthiness of the optional `next_page_token` (absent or the empty
string are falsy). -/
def pagTruthy : Option String → Bool
  | none => false
  | some s => !(s == "")

/-- `AlpacaContractPage.execute` of `src/market.py`.  The method requires the
keyword-only argument `symbol`, but its recursive continuation call is
`self.execute(args, ticker=…, expiry=…, webapi=…, pagination=pagination, …)`
— it passes `ticker` instead of `symbol` (and `args` unsplatted), so every
continuation raises `TypeError` before fetching.  `hasSymbol` records whether
the required argument was supplied; it is `false` on the recursive call.
`fuel` bounds the recursion depth only. -/
def contractPageExec (fetch : Option String → List Contract × Option String) :
    Bool → Option String → Nat → PageResult
  | _, _, 0 => PageResult.err PageErr.fuelExhausted
  | hasSymbol, pagination, fuel + 1 =>
      if hasSymbol = false then PageResult.err PageErr.typeError
      else
        let r := fetch pagination
        if pagTruthy r.2 = false then PageResult.ok r.1
        else
          match contractPageExec fetch false r.2 fuel with
          | PageResult.ok rest => PageResult.ok (r.1 ++ rest)
          | PageResult.err e => PageResult.err e

/-- Modelled from the spec: `fetchAll` of §4.4 (the intended pagination loop
that `AlpacaContractPage.execute` fails to implement): start with no cursor,
append each page's items, re-invoke with the returned cursor until it is
absent.  Returns the items and the number of fetch invocations. -/
def fetchAllAux (fetch : Option String → List Contract × Option String) :
    Nat → Option String → List Contract → Nat → Option (List Contract × Nat)
  | 0, _, _, _ => none
  | fuel + 1, cursor, acc, calls =>
      let r := fetch cursor
      if pagTruthy r.2 = false then some (acc ++ r.1, calls + 1)
      else fetchAllAux fetch fuel r.2 (acc ++ r.1) (calls + 1)

def fetchAll (fetch : Option String → List Contract × Option String) (fuel : Nat) :
    Option (List Contract × Nat) :=
  fetchAllAux fetch fuel none [] 0

/-- The stub fetch of the C6 scenario: two items plus cursor `"A"` on the
first call, one item and no cursor on the second. -/
def stubFetch : Option String → List Contract × Option String :=
  fun cursor =>
    if cursor = none then
      ([⟨"T", 2, OptType.CALL, 100000⟩, ⟨"T", 1, OptType.PUT, 100000⟩], some "A")
    else ([⟨"T", 1, OptType.CALL, 100000⟩], none)

/-- C6: on the two-page stub the code raises `TypeError` on the continuation
call (the recursive `execute` omits the required `symbol` argument), instead
of returning the three items from two fetches that the claim describes; the
spec-modelled `fetchAll` does return exactly 3 items from exactly 2 calls. -/
theorem chain_paginator_claim :
    contractPageExec stubFetch true none 10 = PageResult.err PageErr.typeError ∧
    fetchAll stubFetch 10 =
      some ([⟨"T", 2, OptType.CALL, 100000⟩, ⟨"T", 1, OptType.PUT, 100000⟩,
        ⟨"T", 1, OptType.CALL, 100000⟩], 2) := by
  refine ⟨by decide, by decide⟩

end Alpaca
